import Mathlib

/-!
Verification of the WMA Pro fixed-point decoder
(`media/libstagefright/codecs/wma/wmapro_dec/wmaprodec.c`).

The decoder's bitstream-facing fragments are shallowly embedded below:
machine integers become `Nat`/`Int` with explicit wrapping where the C
types can overflow, the MSB-first bit reader becomes a pure state-passing
structure, fallible paths return `Option` or an explicit error code, and
loops whose termination depends on bitstream contents take an explicit
fuel argument (the theorems are conditional on successful results, so
fuel exhaustion is indistinguishable from a decode error).

Constant Huffman/VLC tables and the fixed-point helper macros live in
headers that are not part of this translation unit; where a claim needs
them they are either passed as parameters (VLC lookups, run/level
tables) or modelled from the specification (saturating clip, 64-bit
multiply-accumulate), as noted on each definition.
-/

namespace Wmapro

/-- MSB-first bit reader over a finite bit buffer (`GetBitContext`).
`pos` counts consumed bits (`get_bits_count`); reads past the end of the
buffer yield zero bits, mirroring the zero padding the C reader relies
on. -/
structure GetBitContext where
  bits : List Bool
  pos : Nat
deriving DecidableEq

/-- Read a single bit, MSB first (`get_bits1`). -/
def get_bits1 (gb : GetBitContext) : Nat × GetBitContext :=
  match gb.bits with
  | [] => (0, ⟨[], gb.pos + 1⟩)
  | b :: rest => ((if b then 1 else 0), ⟨rest, gb.pos + 1⟩)

/-- Read `n` bits MSB first and return their unsigned value (`get_bits`). -/
def get_bits : Nat → GetBitContext → Nat × GetBitContext
  | 0, gb => (0, gb)
  | n + 1, gb =>
    let p := get_bits1 gb
    let q := get_bits n p.2
    (p.1 * 2 ^ n + q.1, q.2)

/-- Read `n` bits and sign-extend (`get_sbits`). -/
def get_sbits (n : Nat) (gb : GetBitContext) : Int × GetBitContext :=
  let p := get_bits n gb
  ((if p.1 < 2 ^ (n - 1) then (p.1 : Int) else (p.1 : Int) - 2 ^ n), p.2)

/-- Skip `n` bits (`skip_bits` / `skip_bits_long`). -/
def skip_bits (n : Nat) (gb : GetBitContext) : GetBitContext :=
  ⟨gb.bits.drop n, gb.pos + n⟩

/-- Unsigned value of an MSB-first bit list. -/
def bitsVal : List Bool → Nat
  | [] => 0
  | b :: bs => (if b then 1 else 0) * 2 ^ bs.length + bitsVal bs

/-- Signed (two's complement) value of an MSB-first bit list. -/
def sbitsVal (l : List Bool) : Int :=
  if bitsVal l < 2 ^ (l.length - 1) then (bitsVal l : Int)
  else (bitsVal l : Int) - 2 ^ l.length

/-! ## Tile / subframe segmentation (`decode_subframe_length`, `decode_tilehdr`) -/

/-- Stream configuration fields consumed by the tile decoder, as set up by
`decode_init` from the extradata. -/
structure TileConfig where
  num_channels : Nat
  samples_per_frame : Nat
  min_samples_per_subframe : Nat
  max_num_subframes : Nat
  max_subframe_len_bit : Bool
  subframe_len_bits : Nat
deriving DecidableEq

/-- The `frame_len_shift` read of `decode_subframe_length`: one flag bit
plus a `subframe_len_bits - 1`-bit field when `max_subframe_len_bit` is
configured, else a plain `subframe_len_bits`-bit field. -/
def decode_subframe_length_shift (cfg : TileConfig) (gb : GetBitContext) :
    Nat × GetBitContext :=
  if cfg.max_subframe_len_bit then
    let p := get_bits1 gb
    if p.1 = 1 then
      let q := get_bits (cfg.subframe_len_bits - 1) p.2
      (1 + q.1, q.2)
    else (0, p.2)
  else get_bits cfg.subframe_len_bits gb

/-- Range check and packaging of `decode_subframe_length`:
`subframe_len = samples_per_frame >> frame_len_shift` must lie in
`[min_samples_per_subframe, samples_per_frame]`. -/
def decode_subframe_length_check (cfg : TileConfig) (fl : Nat × GetBitContext) :
    Option (Nat × GetBitContext) :=
  if cfg.samples_per_frame >>> fl.1 < cfg.min_samples_per_subframe ∨
      cfg.samples_per_frame < cfg.samples_per_frame >>> fl.1 then none
  else some (cfg.samples_per_frame >>> fl.1, fl.2)

/-- `decode_subframe_length`: decode one subframe length at frame offset
`offset`.  When only one length is possible no bits are read; otherwise
the shift is read and the length is range-checked.  `none` models the
`WMAPRO_ERR_InvalidData` return. -/
def decode_subframe_length (cfg : TileConfig) (offset : Nat) (gb : GetBitContext) :
    Option (Nat × GetBitContext) :=
  if offset = cfg.samples_per_frame - cfg.min_samples_per_subframe then
    some (cfg.min_samples_per_subframe, gb)
  else
    decode_subframe_length_check cfg (decode_subframe_length_shift cfg gb)

/-! ## Frame trailer (`decode_frame`) -/

/-- Result of the frame-trailer fragment: the loss flag, the value returned
by `decode_frame` (the `more_frames` bit, or 0 on mismatch), and the
reader. -/
structure TrailerResult where
  packet_loss : Bool
  more_frames : Nat
  gb : GetBitContext
deriving DecidableEq

/-- The zero-bit seek of the non-length-prefixed trailer path: consume bits
while the reader is before `num_saved_bits` and the bit read is zero (the
terminating one-bit is consumed as well). -/
def trailer_zero_scan (nsb : Nat) : Nat → GetBitContext → GetBitContext
  | 0, gb => gb
  | fuel + 1, gb =>
    if gb.pos < nsb then
      let p := get_bits1 gb
      if p.1 = 0 then trailer_zero_scan nsb fuel p.2 else p.2
    else gb

/-- The frame-trailer fragment of `decode_frame` (after all subframes are
decoded and the output is emitted).  With a length prefix the declared
length `len` is compared against the bits consumed since `frame_offset`
plus two; on mismatch `packet_loss` is set and 0 is returned, otherwise
the remaining filler bits are skipped.  Without a length prefix, zero bits
are seeked past.  Finally the `more_frames` trailer bit is read. -/
def decode_frame_trailer (len_pfx : Bool) (len frame_offset nsb fuel : Nat)
    (packet_loss : Bool) (gb : GetBitContext) : TrailerResult :=
  if len_pfx then
    if (len : Int) ≠ ((gb.pos : Int) - (frame_offset : Int)) + 2 then
      ⟨true, 0, gb⟩
    else
      let gb1 := skip_bits ((len : Int) - ((gb.pos : Int) - (frame_offset : Int)) - 1).toNat gb
      let p := get_bits1 gb1
      ⟨packet_loss, p.1, p.2⟩
  else
    let gb1 := trailer_zero_scan nsb fuel gb
    let p := get_bits1 gb1
    ⟨packet_loss, p.1, p.2⟩

/-! ## Packet entry (`decode_packet`) -/

/-- Modelled from the spec: the stable error code for malformed data.  Its
numeric value comes from a header that is not part of this translation
unit; the claims only use it by name. -/
def WMAPRO_ERR_InvalidData : Int := -1

/-- The `decode_packet` state fields touched before the first frame is
decoded. -/
structure PacketState where
  packet_done : Bool
  packet_loss : Bool
  next_packet_start : Nat
  buf_bit_size : Nat
deriving DecidableEq

/-- The entry fragment of `decode_packet`: `*data_size` is cleared, and at
a packet boundary (`packet_done` or `packet_loss` set) the buffer length
is checked against `block_align` before any bit is parsed; a short buffer
returns `WMAPRO_ERR_InvalidData` with zero samples written.  The two long
paths (packet-header parsing plus frame decode, and the carry-over path)
involve the whole frame decoder and are taken as the continuation
parameters `boundary_path` and `carry_path`; each returns the final
(return value, *data_size, state) triple. -/
def decode_packet_entry (block_align : Nat)
    (boundary_path : PacketState → Int × Nat × PacketState)
    (carry_path : PacketState → Int × Nat × PacketState)
    (s : PacketState) (buf_size : Nat) : Int × Nat × PacketState :=
  if s.packet_done || s.packet_loss then
    let s1 : PacketState := { s with packet_done := false }
    if buf_size < block_align then (WMAPRO_ERR_InvalidData, 0, s1)
    else
      boundary_path { s1 with next_packet_start := buf_size - block_align,
                              buf_bit_size := block_align <<< 3 }
  else carry_path s

/-! ## Downmix and output (`decode_frame`, output stage) -/

/-- Modelled from the spec: saturate a value to the signed 16-bit range
(`av_clip_int16`, defined in a header not part of this translation
unit). -/
def av_clip_int16 (x : Int) : Int :=
  if x < -32768 then -32768 else if 32767 < x then 32767 else x

/-- The output stage at the end of `decode_frame`: channel `k`'s
overlap-added ring `fixout32` is `chans.getD k`, and the emitted int16
samples are listed in stream (interleaved) order — the C code fills the
interleaved buffer channel-by-channel for `num_channels <= 2` and
sample-by-sample otherwise, producing this same interleaved sequence.
Five or more channels are downmixed as `(c0+c2+c3, c1+c2+c4)`. -/
def decode_frame_downmix (num_channels : Nat) (chans : List (Nat → Int))
    (samples_per_frame : Nat) : List Int :=
  let ch : Nat → Nat → Int := fun k => chans.getD k (fun _ => 0)
  if num_channels ≤ 2 then
    (List.range samples_per_frame).flatMap (fun i =>
      (List.range num_channels).map (fun c => av_clip_int16 (ch c i >>> (27 - 15))))
  else if num_channels = 3 then
    (List.range samples_per_frame).flatMap (fun i =>
      [av_clip_int16 ((ch 0 i + ch 2 i) >>> (27 - 15)),
       av_clip_int16 ((ch 1 i + ch 2 i) >>> (27 - 15))])
  else if num_channels = 4 then
    (List.range samples_per_frame).flatMap (fun i =>
      [av_clip_int16 ((ch 0 i + ch 2 i) >>> (27 - 15)),
       av_clip_int16 ((ch 1 i + ch 3 i) >>> (27 - 15))])
  else
    (List.range samples_per_frame).flatMap (fun i =>
      [av_clip_int16 ((ch 0 i + ch 2 i + ch 3 i) >>> (27 - 15)),
       av_clip_int16 ((ch 1 i + ch 2 i + ch 4 i) >>> (27 - 15))])

/-! ## Fixed-point helpers -/

/-- Truncate a 64-bit computed value to a signed 32-bit store. -/
def i32 (x : Int) : Int := (x + 2 ^ 31) % 2 ^ 32 - 2 ^ 31

/-- Modelled from the spec: `FIX64_MUL` (64-bit product of two 32-bit
fixed-point values) from a header not in this translation unit. -/
def FIX64_MUL (a b : Int) : Int := a * b

/-- Modelled from the spec: `MSUB64`, 64-bit multiply-subtract. -/
def MSUB64 (acc x y : Int) : Int := acc - x * y

/-- Modelled from the spec: `MADD64`, 64-bit multiply-accumulate. -/
def MADD64 (acc x y : Int) : Int := acc + x * y

/-- Modelled from the spec: `fix64mul32`, a 64x32 multiply with an explicit
right shift, from a header not in this translation unit. -/
def fix64mul32 (a b : Int) (sh : Nat) : Int := (a * b) >>> sh

/-- Translation of the C sign idiom `(x ^ sign) - sign` where `sign` is
either `0` or `-1`: in two's complement, xor with `-1` is bitwise
negation (`-x - 1`), so subtracting the sign yields `x` or `-x`. -/
def xor_sign (x sign : Int) : Int := if sign = 0 then x else -x

/-- `av_log2`, floor binary logarithm (0 for inputs 0 and 1), written with
structural fuel so the kernel can evaluate it. -/
def av_log2_fuel : Nat → Nat → Nat
  | 0, _ => 0
  | fuel + 1, n => if n < 2 then 0 else av_log2_fuel fuel (n / 2) + 1

/-- `av_log2 n` is the floor binary logarithm of `n`. -/
def av_log2 (n : Nat) : Nat := av_log2_fuel n n

/-- `WMAPRO_BLOCK_MIN_BITS`: log2 of the minimum block size. -/
def WMAPRO_BLOCK_MIN_BITS : Nat := 6

/-! ## Windowing and overlap-add (`wmapro_vector_fmul_window`, `wmapro_window`) -/

/-- Per-channel state used by `wmapro_window`: the `fixout32` ring modelled
as a function of absolute (pointer) position, the position of the
channel's `fixcoeffs32` pointer inside the ring, and `prev_block_len`. -/
structure WinChannel where
  fixbuf : Int → Int
  center : Int
  prev_block_len : Nat

/-- `wmapro_vector_fmul_window` over a buffer modelled as a function from
absolute positions to values.  The caller passes `dst = fixstart`,
`src1 = fixstart + len` and the half-window length `len`; after the
`dst += len` adjustment both pointers coincide at `dstc`.  The loop pairs
indices `i ∈ [-len, 0)` with `j = -1 - i ∈ [0, len)`; each iteration reads
exactly the two cells it writes, before writing them, so the loop is a
pointwise map over the pre-call buffer. -/
def wmapro_vector_fmul_window (f : Int → Int) (dstc : Int) (win : Nat → Int) (len : Nat) :
    Int → Int :=
  fun x =>
    let i := x - dstc
    if -(len : Int) ≤ i ∧ i < 0 then
      let j := -1 - i
      i32 (((MSUB64 (FIX64_MUL (f (dstc + i)) (win ((len : Int) + j).toNat))
        (f (dstc + j)) (win ((len : Int) + i).toNat)) >>> 32) <<< 1)
    else if 0 ≤ i ∧ i < (len : Int) then
      let j := i
      let i' := -1 - j
      i32 (((MADD64 (FIX64_MUL (f (dstc + i')) (win ((len : Int) + i').toNat))
        (f (dstc + j)) (win ((len : Int) + j).toNat)) >>> 32) <<< 1)
    else f x

/-- The body of `wmapro_window` for one channel of the current subframe:
start from `prev_block_len`, shrink to `subframe_len` (recentering the
window start) when the new subframe is shorter, select the sine window for
the resulting length, overlap-add with the halved length, and record
`prev_block_len = subframe_len`. -/
def wmapro_window_channel (subframe_len : Nat) (windows : Nat → Nat → Int)
    (ch : WinChannel) : WinChannel :=
  let winlen := if subframe_len < ch.prev_block_len then subframe_len else ch.prev_block_len
  let fixstart : Int := (ch.center - ((ch.prev_block_len >>> 1 : Nat) : Int)) +
    (if subframe_len < ch.prev_block_len
      then (((ch.prev_block_len - subframe_len) >>> 1 : Nat) : Int) else 0)
  let window := windows (av_log2 winlen - WMAPRO_BLOCK_MIN_BITS)
  let half := winlen >>> 1
  { ch with
    fixbuf := wmapro_vector_fmul_window ch.fixbuf (fixstart + (half : Int)) window half,
    prev_block_len := subframe_len }

/-- `wmapro_window`: apply the windowed overlap-add to every channel that
participates in the current subframe. -/
def wmapro_window (subframe_len : Nat) (windows : Nat → Nat → Int)
    (chans : List WinChannel) : List WinChannel :=
  chans.map (wmapro_window_channel subframe_len windows)

/-! ## Run-level coefficient decoding (`fix_wmapro_run_level_decode`) -/

/-- `wmapro_get_large_val`: decode an uncompressed coefficient of 8, 16,
24 or 31 bits, the width selected by up to three continuation flags. -/
def wmapro_get_large_val (gb : GetBitContext) : Nat × GetBitContext :=
  let f1 := get_bits1 gb
  if f1.1 = 1 then
    let f2 := get_bits1 f1.2
    if f2.1 = 1 then
      let f3 := get_bits1 f2.2
      if f3.1 = 1 then get_bits 31 f3.2 else get_bits 24 f3.2
    else get_bits 16 f2.2
  else get_bits 8 f1.2

/-- The optional position jump of the run-level escape path: one flag bit,
then either a 2-bit jump plus 1, or (after a second flag) a
`frame_len_bits`-bit jump plus 4; the triple-flag combination is invalid
(`none`, the immediate -1 return). -/
def rl_escape_jump (frame_len_bits : Nat) (offset : Nat) (gb : GetBitContext) :
    Option Nat × GetBitContext :=
  let f1 := get_bits1 gb
  if f1.1 = 1 then
    let f2 := get_bits1 f1.2
    if f2.1 = 1 then
      let f3 := get_bits1 f2.2
      if f3.1 = 1 then (none, f3.2)
      else
        let j := get_bits frame_len_bits f3.2
        (some (offset + j.1 + 4), j.2)
    else
      let j := get_bits 2 f2.2
      (some (offset + j.1 + 1), j.2)
  else (some offset, f1.2)

/-- A 64-bit coefficient store with the (32-bit truncated) integer in the
high 32 bits and zero low bits (`tmp64.r.hi32 = x; tmp64.r.lo32 = 0`). -/
def mk_hi32 (x : Int) : Int := i32 x <<< 32

/-- The decode loop of `fix_wmapro_run_level_decode`
(`for (; offset < num_coefs; offset++)`): the VLC lookup over the external
constant coefficient table is the parameter `vlc`, and `run_table` /
`level_table` are the constant run-level arrays.  Every store goes to
`ptr64[offset & (block_len - 1)]`.  The first component is 0 on normal
exit or EOB and -1 on the broken escape sequence; the loop consumes fuel
(its `offset` strictly increases, so `num_coefs` steps suffice). -/
def rl_loop (vlc : GetBitContext → Nat × GetBitContext) (level_table : Nat → Int)
    (run_table : Nat → Nat) (frame_len_bits num_coefs block_len : Nat) :
    Nat → Nat → (Nat → Int) → GetBitContext → Int × Nat × (Nat → Int) × GetBitContext
  | 0, offset, buf, gb => (0, offset, buf, gb)
  | fuel + 1, offset, buf, gb =>
    if offset < num_coefs then
      let c := vlc gb
      if 1 < c.1 then
        let offset1 := offset + run_table c.1
        let sb := get_bits1 c.2
        let sign : Int := (sb.1 : Int) - 1
        let v := xor_sign (level_table c.1) sign
        let buf1 := Function.update buf (offset1 &&& (block_len - 1)) (mk_hi32 v)
        rl_loop vlc level_table run_table frame_len_bits num_coefs block_len fuel
          (offset1 + 1) buf1 sb.2
      else if c.1 = 1 then (0, offset, buf, c.2)
      else
        let lv := wmapro_get_large_val c.2
        let ej := rl_escape_jump frame_len_bits offset lv.2
        match ej.1 with
        | none => (-1, offset, buf, ej.2)
        | some offset1 =>
          let sb := get_bits1 ej.2
          let sign : Int := (sb.1 : Int) - 1
          let v := xor_sign (lv.1 : Int) sign
          let buf1 := Function.update buf (offset1 &&& (block_len - 1)) (mk_hi32 v)
          rl_loop vlc level_table run_table frame_len_bits num_coefs block_len fuel
            (offset1 + 1) buf1 sb.2
    else (0, offset, buf, gb)

/-- `fix_wmapro_run_level_decode`: run the decode loop, then report an
error (also) when the final offset overran `num_coefs` — the overflow is
detected only after the loop has ended, with all stores already
performed. -/
def fix_wmapro_run_level_decode (vlc : GetBitContext → Nat × GetBitContext)
    (level_table : Nat → Int) (run_table : Nat → Nat)
    (frame_len_bits offset num_coefs block_len fuel : Nat)
    (buf : Nat → Int) (gb : GetBitContext) : Int × (Nat → Int) × GetBitContext :=
  let r := rl_loop vlc level_table run_table frame_len_bits num_coefs block_len fuel
    offset buf gb
  if r.1 = -1 then (-1, r.2.2.1, r.2.2.2)
  else if num_coefs < r.2.1 then (-1, r.2.2.1, r.2.2.2)
  else (0, r.2.2.1, r.2.2.2)

/-! ## LFE tail zeroing and rescale (`decode_subframe`, transmit branch) -/

/-- `wmapro_vector_fmul_scalar64`: rescale `len` coefficients starting at
`start` from the 64-bit source into the 32-bit destination; `mul2 = 1`
takes the fast path (the two branches compute the same product).  A
non-positive C `len` performs no writes, matched here by natural
subtraction in the caller. -/
def wmapro_vector_fmul_scalar64 (dst src : Nat → Int) (mul1 mul2 : Int)
    (scale start len : Nat) : Nat → Int :=
  fun j =>
    if start ≤ j ∧ j < start + len then
      if mul2 = 1 then i32 ((fix64mul32 (src j) mul1 31) >>> (scale + (31 - 29)))
      else i32 (((fix64mul32 (src j) mul1 31) * mul2) >>> (scale + (31 - 29)))
    else dst j

/-- The rescale stage of `decode_subframe` for one channel with
`transmit_coefs` set, producing the `fixtmp` buffer that is passed to
`fix_imdct_half`: for the LFE channel the tail from
`subwoofer_cutoffs[table_idx]` is first zeroed, then the per-band inverse
quantization loop writes `[sfb_offsets[b], min(sfb_offsets[b+1],
subframe_len))` for every band.  The per-band scalar computation
(`quant_step`, scale factors and the constant `pow10` tables) is
abstracted into the per-band inputs `mul1`, `mul2` and `scale`; the claim
does not depend on their values. -/
def subframe_rescale (is_lfe : Bool) (cutoff subframe_len num_bands : Nat)
    (sfb_offsets : Nat → Nat) (mul1 mul2 : Nat → Int) (scale : Nat → Nat)
    (fixcoeffs fixtmp : Nat → Int) : Nat → Int :=
  let t0 := if is_lfe then
      (fun j => if cutoff ≤ j ∧ j < subframe_len then 0 else fixtmp j)
    else fixtmp
  (List.range num_bands).foldl
    (fun t b =>
      let start := sfb_offsets b
      let endb := min (sfb_offsets (b + 1)) subframe_len
      wmapro_vector_fmul_scalar64 t fixcoeffs (mul1 b) (mul2 b) (scale b) start
        (endb - start))
    t0

/-! ## Quantization step (`decode_subframe`, transmit-coefficients branch) -/

/-- The 5-bit continuation loop of the quantization-step decoder: while at
least 5 bits remain before `num_saved_bits` and the next 5-bit chunk reads
as 31, accumulate 31; the loop leaves the last value read (or the incoming
`step` if the bit guard fails immediately) in `step`. -/
def quant_step_loop (nsb : Nat) : Nat → Nat → Int → GetBitContext → Nat × Int × GetBitContext
  | 0, quant, step, gb => (quant, step, gb)
  | fuel + 1, quant, step, gb =>
    if gb.pos + 5 < nsb then
      let p := get_bits 5 gb
      if p.1 = 31 then quant_step_loop nsb fuel (quant + 31) 31 p.2
      else (quant, (p.1 : Int), p.2)
    else (quant, step, gb)

/-- The quantization-step decoding fragment of `decode_subframe`, executed
when at least one channel transmits coefficients: base value
`(90 * bits_per_sample) >> 4`, plus a signed 6-bit field; when that field
is -32 or 31, the 5-bit continuation chunks are accumulated and applied
with the sign `(step == 31) - 1`. -/
def decode_quant_step (bits_per_sample nsb fuel : Nat) (gb : GetBitContext) :
    Int × GetBitContext :=
  let quant_step : Int := ((90 * bits_per_sample) >>> 4 : Nat)
  let p := get_sbits 6 gb
  let step := p.1
  let quant_step := quant_step + step
  if step = -32 ∨ step = 31 then
    let sign : Int := if step = 31 then 0 else -1
    let q := quant_step_loop nsb fuel 0 step p.2
    (quant_step + xor_sign ((q.1 : Int) + q.2.1) sign, q.2.2)
  else (quant_step, p.2)

/-- `k` copies of the all-ones 5-bit chunk (value 31). -/
def rep31 : Nat → List Bool
  | 0 => []
  | k + 1 => [true, true, true, true, true] ++ rep31 k

/-! ## Scale factors (`decode_scale_factors`, first-transmission branch) -/

/-- The per-band DPCM accumulation of the `!reuse_sf` branch of
`decode_scale_factors`: `val += vlc_symbol - 60; *sf = val`.  The symbols
decoded by `sf_vlc` (an external constant Huffman table) are supplied as
the list `syms`, one per band. -/
def sf_dpcm_run (val : Int) : List Nat → List Int
  | [] => []
  | x :: xs =>
    let val' := val + ((x : Int) - 60)
    val' :: sf_dpcm_run val' xs

/-- The first-transmission (`!reuse_sf`) branch of `decode_scale_factors`
for one channel: read the 2-bit `scale_factor_step` field plus one, seed
the running value with `45 / scale_factor_step`, then DPCM-accumulate one
scale factor per band. -/
def decode_scale_factors_dpcm (gb : GetBitContext) (syms : List Nat) :
    Nat × List Int × GetBitContext :=
  let p := get_bits 2 gb
  let scale_factor_step := p.1 + 1
  let val : Int := (45 : Int) / (scale_factor_step : Int)
  (scale_factor_step, sf_dpcm_run val syms, p.2)

/-! ## Tile header (`decode_tilehdr`) -/

/-- `MAX_SUBFRAMES` (32). -/
def MAX_SUBFRAMES : Nat := 32

/-- Per-channel tiling state: the subframe lengths decoded so far (their
count is `num_subframes`) and the `uint16_t` sample accumulator
`num_samples`. -/
structure TileChannel where
  subframe_len : List Nat
  num_samples : Nat
deriving DecidableEq

/-- Loop state of `decode_tilehdr`: the channels, `min_channel_len`,
`channels_for_cur_subframe` (carried across iterations) and the reader. -/
structure TileState where
  channels : List TileChannel
  mcl : Nat
  cfcs : Nat
  gb : GetBitContext
deriving DecidableEq

/-- First pass of the loop body: for each channel in order, decide whether
it contains the current subframe.  A channel whose accumulated samples
equal `min_channel_len` participates unconditionally under a fixed layout,
when it was the single candidate of the previous scan, or when only
`min_samples_per_subframe` samples remain; otherwise it reads one bit. -/
def tile_contains (cfg : TileConfig) (fixed : Bool) (cfcs mcl : Nat) :
    List TileChannel → GetBitContext → List Bool × GetBitContext
  | [], gb => ([], gb)
  | ch :: rest, gb =>
    if ch.num_samples = mcl then
      if fixed = true ∨ cfcs = 1 ∨
          mcl = cfg.samples_per_frame - cfg.min_samples_per_subframe then
        let r := tile_contains cfg fixed cfcs mcl rest gb
        (true :: r.1, r.2)
      else
        let p := get_bits1 gb
        let r := tile_contains cfg fixed cfcs mcl rest p.2
        (decide (p.1 = 1) :: r.1, r.2)
    else
      let r := tile_contains cfg fixed cfcs mcl rest gb
      (false :: r.1, r.2)

/-- Second pass of the loop body: append the decoded subframe length `l`
to every participating channel, with the subframe-count check
(`>= MAX_SUBFRAMES` is an error) and the per-channel overflow check
(`num_samples > samples_per_frame` is an error, on the `uint16_t` wrapped
sum), while rescanning the remaining channels for the new minimum
(`mcl`, only decreasing) and candidate count (`cfcs`). -/
def tile_apply (cfg : TileConfig) (l : Nat) :
    List (TileChannel × Bool) → Nat → Nat → Option (List TileChannel × Nat × Nat)
  | [], mcl, cfcs => some ([], mcl, cfcs)
  | (ch, f) :: rest, mcl, cfcs =>
    if f then
      if MAX_SUBFRAMES ≤ ch.subframe_len.length then none
      else
        let ns := (ch.num_samples + l) % 65536
        if cfg.samples_per_frame < ns then none
        else
          match tile_apply cfg l rest mcl cfcs with
          | none => none
          | some (chs, mcl2, cfcs2) => some (⟨ch.subframe_len ++ [l], ns⟩ :: chs, mcl2, cfcs2)
    else
      if ch.num_samples ≤ mcl then
        let mcl1 := if ch.num_samples < mcl then ch.num_samples else mcl
        let cfcs1 := (if ch.num_samples < mcl then 0 else cfcs) + 1
        match tile_apply cfg l rest mcl1 cfcs1 with
        | none => none
        | some (chs, mcl2, cfcs2) => some (ch :: chs, mcl2, cfcs2)
      else
        match tile_apply cfg l rest mcl cfcs with
        | none => none
        | some (chs, mcl2, cfcs2) => some (ch :: chs, mcl2, cfcs2)

/-- One iteration of the `do`-loop of `decode_tilehdr`: compute the
contains flags, decode the common subframe length at the current minimum,
add it to `min_channel_len`, and apply it to the channels. -/
def tile_step (cfg : TileConfig) (fixed : Bool) (st : TileState) : Option TileState :=
  let cf := tile_contains cfg fixed st.cfcs st.mcl st.channels st.gb
  match decode_subframe_length cfg st.mcl cf.2 with
  | none => none
  | some (l, gb1) =>
    match tile_apply cfg l (st.channels.zip cf.1) (st.mcl + l) st.cfcs with
    | none => none
    | some (chs, mcl2, cfcs2) => some ⟨chs, mcl2, cfcs2, gb1⟩

/-- The `do { ... } while (min_channel_len < samples_per_frame)` loop,
with fuel (each iteration consumes bits or increases the minimum, and the
theorems are conditional on success). -/
def tile_loop (cfg : TileConfig) (fixed : Bool) : Nat → TileState → Option TileState
  | 0, _ => none
  | fuel + 1, st =>
    match tile_step cfg fixed st with
    | none => none
    | some st1 =>
      if st1.mcl < cfg.samples_per_frame then tile_loop cfg fixed fuel st1 else some st1

/-- Running subframe offsets: element `i` is the sum of the lengths that
precede subframe `i`. -/
def compute_offsets (acc : Nat) : List Nat → List Nat
  | [] => []
  | l :: ls => acc :: compute_offsets (acc + l) ls

/-- The fixed-channel-layout flag of `decode_tilehdr`: forced when only
one subframe layout is possible, otherwise one bit is read. -/
def tilehdr_fixed (cfg : TileConfig) (gb : GetBitContext) : Bool × GetBitContext :=
  if cfg.max_num_subframes = 1 then (true, gb)
  else
    let p := get_bits1 gb
    (decide (p.1 = 1), p.2)

/-- `decode_tilehdr`: reset the per-channel tiling state, read the fixed
layout flag, run the subframe-discovery loop, then compute each channel's
`subframe_offset` list as the running sums.  The result pairs each
channel's subframe length list with its offset list. -/
def decode_tilehdr (cfg : TileConfig) (fuel : Nat) (gb : GetBitContext) :
    Option (List (List Nat × List Nat) × GetBitContext) :=
  match tile_loop cfg (tilehdr_fixed cfg gb).1 fuel
      ⟨List.replicate cfg.num_channels ⟨[], 0⟩, 0, cfg.num_channels,
        (tilehdr_fixed cfg gb).2⟩ with
  | none => none
  | some st =>
    some (st.channels.map (fun ch => (ch.subframe_len, compute_offsets 0 ch.subframe_len)),
      st.gb)

/-- The loop invariant of `decode_tilehdr`: the running minimum bounds
every channel's accumulated samples from below, no channel exceeds
`samples_per_frame`, and each accumulator equals the sum of the decoded
subframe lengths of its channel. -/
def TileInvariant (cfg : TileConfig) (st : TileState) : Prop :=
  ∀ ch ∈ st.channels, st.mcl ≤ ch.num_samples ∧
    ch.num_samples ≤ cfg.samples_per_frame ∧
    ch.num_samples = ch.subframe_len.sum

end Wmapro

namespace Wmapro

theorem get_bits1_cons (b : Bool) (bs : List Bool) (p : Nat) :
    get_bits1 ⟨b :: bs, p⟩ = ((if b then 1 else 0), ⟨bs, p + 1⟩) := rfl

theorem get_bits_append (l X : List Bool) (p : Nat) :
    get_bits l.length ⟨l ++ X, p⟩ = (bitsVal l, ⟨X, p + l.length⟩) := by
  induction l generalizing p with
  | nil => simp [get_bits, bitsVal]
  | cons b bs ih =>
    simp only [List.length_cons, get_bits, List.cons_append, get_bits1_cons, bitsVal]
    rw [ih]
    refine Prod.ext rfl ?_
    simp
    omega

theorem get_bits_lt (n : Nat) (gb : GetBitContext) : (get_bits n gb).1 < 2 ^ n := by
  induction n generalizing gb with
  | zero => simp [get_bits]
  | succ n ih =>
    simp only [get_bits]
    have h1 : (get_bits1 gb).1 ≤ 1 := by
      unfold get_bits1
      cases gb.bits with
      | nil => simp
      | cons b bs => simp; split <;> simp
    have h2 := ih (get_bits1 gb).2
    have : (get_bits1 gb).1 * 2 ^ n ≤ 2 ^ n := by
      calc (get_bits1 gb).1 * 2 ^ n ≤ 1 * 2 ^ n := Nat.mul_le_mul_right _ h1
        _ = 2 ^ n := by ring
    calc (get_bits1 gb).1 * 2 ^ n + (get_bits n (get_bits1 gb).2).1
        < (get_bits1 gb).1 * 2 ^ n + 2 ^ n := by omega
      _ ≤ 2 ^ n + 2 ^ n := by omega
      _ = 2 ^ (n + 1) := by ring

theorem get_sbits_append (l X : List Bool) (p : Nat) :
    get_sbits l.length ⟨l ++ X, p⟩ = (sbitsVal l, ⟨X, p + l.length⟩) := by
  simp [get_sbits, sbitsVal, get_bits_append]

theorem flatMap_length_two (f : Nat → List Int) (hf : ∀ j, (f j).length = 2) :
    ∀ l : List Nat, (l.flatMap f).length = 2 * l.length := by
  intro l
  induction l with
  | nil => simp
  | cons a t ih =>
    simp only [List.flatMap_cons, List.length_append, List.length_cons, ih, hf]
    ring

theorem range_flatMap_pair_get (f : Nat → List Int) (hf : ∀ j, (f j).length = 2) :
    ∀ n i r, i < n → r < 2 →
      ((List.range n).flatMap f).get? (2 * i + r) = (f i).get? r := by
  intro n
  induction n with
  | zero => intro i r hi _; omega
  | succ n ih =>
    intro i r hi hr
    rw [List.range_succ, List.flatMap_append]
    by_cases hin : i < n
    · rw [List.get?_append]
      · exact ih i r hin hr
      · rw [flatMap_length_two f hf, List.length_range]
        omega
    · have hieq : i = n := by omega
      subst hieq
      rw [List.get?_append_right]
      · rw [flatMap_length_two f hf, List.length_range]
        simp only [List.flatMap_cons, List.flatMap_nil, List.append_nil]
        have h3 : 2 * i + r - 2 * i = r := by omega
        rw [h3]
      · rw [flatMap_length_two f hf, List.length_range]
        omega

theorem quant_step_loop_spec (nsb : Nat) (k : Nat) (tb rest : List Bool) (p q : Nat)
    (s : Int) (fuel : Nat) (htb : tb.length = 5) (ht : bitsVal tb ≠ 31) (hfuel : k < fuel)
    (hbits : p + 5 * k + 5 < nsb) :
    quant_step_loop nsb fuel q s ⟨rep31 k ++ (tb ++ rest), p⟩ =
      (q + 31 * k, (bitsVal tb : Int), ⟨rest, p + 5 * k + 5⟩) := by
  induction k generalizing fuel q p s with
  | zero =>
    cases fuel with
    | zero => omega
    | succ f =>
      simp only [rep31, List.nil_append, quant_step_loop]
      have hguard : p + 5 < nsb := by omega
      rw [if_pos hguard]
      have hgb : get_bits 5 ⟨tb ++ rest, p⟩ = (bitsVal tb, ⟨rest, p + 5⟩) := by
        have := get_bits_append tb rest p
        rw [htb] at this
        exact this
      rw [hgb]
      simp only []
      rw [if_neg ht]
      have h0 : q + 31 * 0 = q := by ring
      have h1 : p + 5 * 0 + 5 = p + 5 := by omega
      rw [h0, h1]
  | succ k ih =>
    cases fuel with
    | zero => omega
    | succ f =>
      simp only [rep31, List.append_assoc, quant_step_loop]
      have hguard : p + 5 < nsb := by omega
      rw [if_pos hguard]
      have hchunk : get_bits 5 ⟨[true, true, true, true, true] ++ (rep31 k ++ (tb ++ rest)), p⟩ =
          (31, ⟨rep31 k ++ (tb ++ rest), p + 5⟩) := by
        have := get_bits_append [true, true, true, true, true] (rep31 k ++ (tb ++ rest)) p
        simpa [bitsVal] using this
      rw [hchunk]
      simp only [if_pos rfl]
      rw [ih (p + 5) (q + 31) 31 f (by omega) (by omega)]
      have h1 : q + 31 + 31 * k = q + 31 * (k + 1) := by ring
      have h2 : p + 5 + 5 * k + 5 = p + 5 * (k + 1) + 5 := by ring
      rw [h1, h2, if_pos trivial]

theorem sf_dpcm_run_get (val : Int) (syms : List Nat) (i : Nat) (h : i < syms.length) :
    (sf_dpcm_run val syms).get? i =
      some (val + ((syms.take (i + 1)).map (fun x => (x : Int) - 60)).sum) := by
  induction syms generalizing val i with
  | nil => simp at h
  | cons x xs ih =>
    cases i with
    | zero => simp [sf_dpcm_run]
    | succ i =>
      simp only [sf_dpcm_run, List.get?_cons_succ]
      rw [ih (val + ((x : Int) - 60)) i (by simpa using h)]
      simp [List.take_succ_cons]
      ring

end Wmapro

/-- Claim C7: in `decode_scale_factors`, the first time a channel transmits
scale factors (`reuse_sf` false), `scale_factor_step` is a 2-bit field plus
one — hence in `[1..4]` — the running value is seeded with
`45 / scale_factor_step`, and each band's stored scale factor equals the
running value after adding (VLC symbol - 60) for that band. -/
theorem claim_C7_scale_factor_dpcm (gb : Wmapro.GetBitContext) (syms : List Nat) :
    (Wmapro.decode_scale_factors_dpcm gb syms).1 = (Wmapro.get_bits 2 gb).1 + 1 ∧
    (1 ≤ (Wmapro.decode_scale_factors_dpcm gb syms).1 ∧
      (Wmapro.decode_scale_factors_dpcm gb syms).1 ≤ 4) ∧
    ∀ i, i < syms.length →
      (Wmapro.decode_scale_factors_dpcm gb syms).2.1.get? i =
        some ((45 : Int) / (((Wmapro.get_bits 2 gb).1 + 1 : Nat) : Int) +
          ((syms.take (i + 1)).map (fun x => (x : Int) - 60)).sum) := by
  refine ⟨rfl, ⟨?_, ?_⟩, ?_⟩
  · exact Nat.succ_le_succ (Nat.zero_le _)
  · have := Wmapro.get_bits_lt 2 gb
    simp only [Wmapro.decode_scale_factors_dpcm]
    omega
  · intro i hi
    exact Wmapro.sf_dpcm_run_get _ syms i hi

/-- Witness for C7: 2-bit field 2 gives step 3, seed 15; symbols 61 and 59
store 16 then 15. -/
theorem claim_C7_witness :
    (Wmapro.decode_scale_factors_dpcm ⟨[true, false], 0⟩ [61, 59]).2.1.get? 1 = some 15 := by
  rw [(claim_C7_scale_factor_dpcm ⟨[true, false], 0⟩ [61, 59]).2.2 1 (by decide)]
  decide

/-- Claim C3: when at least one channel transmits coefficients, the shared
quantization step equals `(90 * bits_per_sample) >> 4` plus a signed 6-bit
value; exactly when that value is -32 or 31, further 5-bit chunks are read
while each equals 31 (and bits remain), and the accumulated total — 31 per
continuation chunk plus the terminating non-31 chunk — is added positively
for 31 and negatively for -32.  The reader position in the result shows
that continuation bits are consumed exactly in the -32/31 cases. -/
theorem claim_C3_quant_step (bps nsb fuel k : Nat) (stepb tb rest : List Bool) (p : Nat)
    (hstep : stepb.length = 6) (htb : tb.length = 5) (ht : Wmapro.bitsVal tb ≠ 31)
    (hfuel : k < fuel) (hbits : p + 6 + 5 * k + 5 < nsb) :
    Wmapro.decode_quant_step bps nsb fuel ⟨stepb ++ (Wmapro.rep31 k ++ (tb ++ rest)), p⟩ =
      (if Wmapro.sbitsVal stepb = 31 then
          (((90 * bps) >>> 4 : Nat) : Int) + 31 + (31 * k + Wmapro.bitsVal tb)
        else if Wmapro.sbitsVal stepb = -32 then
          (((90 * bps) >>> 4 : Nat) : Int) - 32 - (31 * k + Wmapro.bitsVal tb)
        else (((90 * bps) >>> 4 : Nat) : Int) + Wmapro.sbitsVal stepb,
       if Wmapro.sbitsVal stepb = 31 ∨ Wmapro.sbitsVal stepb = -32 then
          ⟨rest, p + 6 + 5 * k + 5⟩
        else ⟨Wmapro.rep31 k ++ (tb ++ rest), p + 6⟩) := by
  unfold Wmapro.decode_quant_step
  have hsb : Wmapro.get_sbits 6 ⟨stepb ++ (Wmapro.rep31 k ++ (tb ++ rest)), p⟩ =
      (Wmapro.sbitsVal stepb, ⟨Wmapro.rep31 k ++ (tb ++ rest), p + 6⟩) := by
    have := Wmapro.get_sbits_append stepb (Wmapro.rep31 k ++ (tb ++ rest)) p
    rw [hstep] at this
    exact this
  rw [hsb]
  simp only []
  by_cases h31 : Wmapro.sbitsVal stepb = 31
  · rw [if_pos (Or.inr h31)]
    rw [Wmapro.quant_step_loop_spec nsb k tb rest (p + 6) 0 _ fuel htb ht hfuel (by omega)]
    rw [if_pos h31, if_pos (Or.inl h31), if_pos h31]
    simp only [Wmapro.xor_sign, if_pos rfl]
    rw [h31]
    refine Prod.ext ?_ rfl
    show (((90 * bps) >>> 4 : Nat) : Int) + 31 + (((0 + 31 * k : Nat) : Int) + Wmapro.bitsVal tb) =
      (((90 * bps) >>> 4 : Nat) : Int) + 31 + (31 * (k : Int) + Wmapro.bitsVal tb)
    push_cast
    ring
  · by_cases h32 : Wmapro.sbitsVal stepb = -32
    · rw [if_pos (Or.inl h32)]
      rw [Wmapro.quant_step_loop_spec nsb k tb rest (p + 6) 0 _ fuel htb ht hfuel (by omega)]
      rw [if_neg h31, if_pos h32, if_pos (Or.inr h32), if_neg h31]
      have hne : ¬ ((-1 : Int) = 0) := by decide
      simp only [Wmapro.xor_sign, if_neg hne]
      rw [h32]
      refine Prod.ext ?_ rfl
      show (((90 * bps) >>> 4 : Nat) : Int) + -32 + -(((0 + 31 * k : Nat) : Int) + Wmapro.bitsVal tb) =
        (((90 * bps) >>> 4 : Nat) : Int) - 32 - (31 * (k : Int) + Wmapro.bitsVal tb)
      push_cast
      ring
    · have hnor : ¬ (Wmapro.sbitsVal stepb = -32 ∨ Wmapro.sbitsVal stepb = 31) := by
        intro h; cases h <;> contradiction
      have hnor2 : ¬ (Wmapro.sbitsVal stepb = 31 ∨ Wmapro.sbitsVal stepb = -32) := by
        intro h; cases h <;> contradiction
      rw [if_neg hnor, if_neg h31, if_neg h32, if_neg hnor2]

/-- Witness for C3: base 90 (16 bits per sample), 6-bit field 31, one
continuation chunk of 31, terminator 3: result 90 + 31 + 31 + 3 = 155. -/
theorem claim_C3_witness :
    Wmapro.decode_quant_step 16 100 5
      ⟨[false, true, true, true, true, true] ++
        (Wmapro.rep31 1 ++ ([false, false, false, true, true] ++ [])), 0⟩ =
      (155, ⟨[], 16⟩) := by
  rw [claim_C3_quant_step 16 100 5 1 [false, true, true, true, true, true]
    [false, false, false, true, true] [] 0 (by decide) (by decide) (by decide)
    (by decide) (by decide)]
  decide

/-- Claim C10: when `decode_subframe_length` is called with `offset` equal to
`samples_per_frame - min_samples_per_subframe`, it returns
`min_samples_per_subframe` and consumes no bits (the reader is returned
unchanged). -/
theorem claim_C10_subframe_length_no_bits (cfg : Wmapro.TileConfig) (offset : Nat)
    (gb : Wmapro.GetBitContext)
    (h : offset = cfg.samples_per_frame - cfg.min_samples_per_subframe) :
    Wmapro.decode_subframe_length cfg offset gb = some (cfg.min_samples_per_subframe, gb) := by
  simp [Wmapro.decode_subframe_length, h]

/-- Witness for C10 at a concrete configuration. -/
theorem claim_C10_witness :
    Wmapro.decode_subframe_length ⟨2, 2048, 128, 16, true, 5⟩ 1920 ⟨[], 0⟩ =
      some (128, ⟨[], 0⟩) :=
  claim_C10_subframe_length_no_bits ⟨2, 2048, 128, 16, true, 5⟩ 1920 ⟨[], 0⟩ (by decide)

/-- Counterexample to C5 as stated: at the frame trailer 4 bits have been
consumed since the frame start and the declared length is 6, so consumed
does not equal the declared length minus one (5) — yet `decode_frame`
accepts the frame and does not flag `packet_loss` (the code compares
against the declared length minus two). -/
theorem claim_C5_counterexample :
    (Wmapro.decode_frame_trailer true 6 0 100 10 false ⟨[true, true], 4⟩).packet_loss = false ∧
      (4 : Int) ≠ (6 : Int) - 1 := by
  decide

/-- Claim C5 (amended): when frames are length-prefixed, `decode_frame`
flags `packet_loss` at the frame trailer exactly when the bits consumed
since the frame start do not equal the declared frame length minus two
(equivalently: after the one filler bit is skipped on the matching path,
the consumed count is the declared length minus one, just before the
trailer bit); on mismatch it returns with `more_frames` = 0 for that
call. -/
theorem claim_C5_trailer_mismatch (len fo nsb fuel : Nat) (gb : Wmapro.GetBitContext) :
    ((Wmapro.decode_frame_trailer true len fo nsb fuel false gb).packet_loss = true ↔
      (len : Int) ≠ ((gb.pos : Int) - (fo : Int)) + 2) ∧
    ((len : Int) ≠ ((gb.pos : Int) - (fo : Int)) + 2 →
      Wmapro.decode_frame_trailer true len fo nsb fuel false gb = ⟨true, 0, gb⟩) := by
  unfold Wmapro.decode_frame_trailer
  simp only [if_true]
  by_cases hc : (len : Int) ≠ ((gb.pos : Int) - (fo : Int)) + 2
  · rw [if_pos hc]
    exact ⟨⟨fun _ => hc, fun _ => rfl⟩, fun _ => rfl⟩
  · rw [if_neg hc]
    exact ⟨⟨fun h => absurd h (by simp), fun h => absurd h hc⟩, fun h => absurd h hc⟩

/-- Witness for the amended C5: declared length 9 with only 3 consumed
bits mismatches (3 + 2 ≠ 9), so the loss flag is set and 0 is returned. -/
theorem claim_C5_witness :
    Wmapro.decode_frame_trailer true 9 0 100 10 false ⟨[], 3⟩ =
      ⟨true, 0, ⟨[], 3⟩⟩ :=
  (claim_C5_trailer_mismatch 9 0 100 10 ⟨[], 3⟩).2 (by decide)

/-- Claim C8: if `decode_packet` is invoked at a packet boundary
(`packet_done` or `packet_loss` set) with `buf_size` smaller than
`block_align`, it returns `WMAPRO_ERR_InvalidData` and writes zero output
samples (`*data_size` = 0), for every possible continuation of the two
long decode paths. -/
theorem claim_C8_short_packet (block_align : Nat)
    (bp cp : Wmapro.PacketState → Int × Nat × Wmapro.PacketState)
    (s : Wmapro.PacketState) (buf_size : Nat)
    (hb : s.packet_done = true ∨ s.packet_loss = true)
    (hs : buf_size < block_align) :
    Wmapro.decode_packet_entry block_align bp cp s buf_size =
      (Wmapro.WMAPRO_ERR_InvalidData, 0, { s with packet_done := false }) := by
  unfold Wmapro.decode_packet_entry
  have hcond : (s.packet_done || s.packet_loss) = true := by
    rcases hb with h | h <;> simp [h]
  rw [if_pos hcond, if_pos hs]

/-- Witness for C8 at a concrete state and buffer size. -/
theorem claim_C8_witness :
    Wmapro.decode_packet_entry 2230 (fun s => (0, 7, s)) (fun s => (0, 9, s))
      ⟨true, false, 0, 0⟩ 100 =
      (Wmapro.WMAPRO_ERR_InvalidData, 0, ⟨false, false, 0, 0⟩) :=
  claim_C8_short_packet 2230 (fun s => (0, 7, s)) (fun s => (0, 9, s))
    ⟨true, false, 0, 0⟩ 100 (Or.inl rfl) (by decide)

/-- Claim C2: for the output stage of a frame with five or more channels,
each output stereo pair `i` is
`(clip_int16((c0+c2+c3) >> 12), clip_int16((c1+c2+c4) >> 12))` where `ck`
is channel `k`'s overlap-added output sample `i`; channels beyond the
first five contribute nothing (two channel sets agreeing on channels 0..4
produce identical output). -/
theorem claim_C2_downmix (nc spf : Nat) (chans chans' : List (Nat → Int)) (h5 : 5 ≤ nc) :
    (∀ i, i < spf →
      (Wmapro.decode_frame_downmix nc chans spf).get? (2 * i) =
        some (Wmapro.av_clip_int16 ((chans.getD 0 (fun _ => 0) i +
          chans.getD 2 (fun _ => 0) i + chans.getD 3 (fun _ => 0) i) >>> 12)) ∧
      (Wmapro.decode_frame_downmix nc chans spf).get? (2 * i + 1) =
        some (Wmapro.av_clip_int16 ((chans.getD 1 (fun _ => 0) i +
          chans.getD 2 (fun _ => 0) i + chans.getD 4 (fun _ => 0) i) >>> 12))) ∧
    ((∀ k, k < 5 → chans.getD k (fun _ => 0) = chans'.getD k (fun _ => 0)) →
      Wmapro.decode_frame_downmix nc chans spf = Wmapro.decode_frame_downmix nc chans' spf) := by
  have h2 : ¬ nc ≤ 2 := by omega
  have h3 : ¬ nc = 3 := by omega
  have h4 : ¬ nc = 4 := by omega
  unfold Wmapro.decode_frame_downmix
  simp only [if_neg h2, if_neg h3, if_neg h4]
  constructor
  · intro i hi
    have hf : ∀ j, ([Wmapro.av_clip_int16 ((chans.getD 0 (fun _ => 0) j +
        chans.getD 2 (fun _ => 0) j + chans.getD 3 (fun _ => 0) j) >>> (27 - 15)),
        Wmapro.av_clip_int16 ((chans.getD 1 (fun _ => 0) j +
        chans.getD 2 (fun _ => 0) j + chans.getD 4 (fun _ => 0) j) >>> (27 - 15))] :
          List Int).length = 2 := fun _ => rfl
    constructor
    · have := Wmapro.range_flatMap_pair_get _ hf spf i 0 hi (by omega)
      rw [Nat.add_zero] at this
      rw [this]
      norm_num
    · have := Wmapro.range_flatMap_pair_get _ hf spf i 1 hi (by omega)
      rw [this]
      norm_num
  · intro hagree
    have hb : (fun i => [Wmapro.av_clip_int16 ((chans.getD 0 (fun _ => 0) i +
        chans.getD 2 (fun _ => 0) i + chans.getD 3 (fun _ => 0) i) >>> (27 - 15)),
        Wmapro.av_clip_int16 ((chans.getD 1 (fun _ => 0) i +
        chans.getD 2 (fun _ => 0) i + chans.getD 4 (fun _ => 0) i) >>> (27 - 15))]) =
        (fun i => [Wmapro.av_clip_int16 ((chans'.getD 0 (fun _ => 0) i +
        chans'.getD 2 (fun _ => 0) i + chans'.getD 3 (fun _ => 0) i) >>> (27 - 15)),
        Wmapro.av_clip_int16 ((chans'.getD 1 (fun _ => 0) i +
        chans'.getD 2 (fun _ => 0) i + chans'.getD 4 (fun _ => 0) i) >>> (27 - 15))]) := by
      funext i
      rw [hagree 0 (by omega), hagree 1 (by omega), hagree 2 (by omega),
        hagree 3 (by omega), hagree 4 (by omega)]
    rw [hb]

/-- Witness for C2: six channels, one sample; (8192+4096+4096) >> 12 = 4. -/
theorem claim_C2_witness :
    (Wmapro.decode_frame_downmix 6
      [fun _ => 8192, fun _ => 0, fun _ => 4096, fun _ => 4096, fun _ => 0,
        fun _ => 123456] 1).get? 0 = some 4 := by
  rw [((claim_C2_downmix 6 1
    [fun _ => 8192, fun _ => 0, fun _ => 4096, fun _ => 4096, fun _ => 0, fun _ => 123456]
    [fun _ => 8192, fun _ => 0, fun _ => 4096, fun _ => 4096, fun _ => 0, fun _ => 123456]
    (by omega)).1 0 (by omega)).1]
  decide

/-- Any value masked with `2^k - 1` stays below `2^k`. -/
theorem and_mask_lt (x k : Nat) : x &&& (2 ^ k - 1) < 2 ^ k := by
  have h1 : x &&& (2 ^ k - 1) ≤ 2 ^ k - 1 := Nat.and_le_right
  have h2 : 1 ≤ 2 ^ k := Nat.one_le_two_pow
  omega

theorem rl_loop_mask (vlc : Wmapro.GetBitContext → Nat × Wmapro.GetBitContext)
    (level_table : Nat → Int) (run_table : Nat → Nat) (frame_len_bits num_coefs k : Nat) :
    ∀ (fuel offset : Nat) (buf : Nat → Int) (gb : Wmapro.GetBitContext) (j : Nat),
      2 ^ k ≤ j →
      (Wmapro.rl_loop vlc level_table run_table frame_len_bits num_coefs (2 ^ k) fuel
        offset buf gb).2.2.1 j = buf j := by
  intro fuel
  induction fuel with
  | zero => intro offset buf gb j _; rfl
  | succ f ih =>
    intro offset buf gb j hj
    have hne : ∀ x : Nat, x &&& (2 ^ k - 1) ≠ j := by
      intro x
      have := and_mask_lt x k
      omega
    simp only [Wmapro.rl_loop]
    by_cases h1 : offset < num_coefs
    · rw [if_pos h1]
      by_cases h2 : 1 < (vlc gb).1
      · rw [if_pos h2]
        rw [ih _ _ _ _ hj]
        exact Function.update_noteq ((hne _).symm) _ buf
      · rw [if_neg h2]
        by_cases h3 : (vlc gb).1 = 1
        · rw [if_pos h3]
        · rw [if_neg h3]
          cases hej : (Wmapro.rl_escape_jump frame_len_bits offset
              (Wmapro.wmapro_get_large_val (vlc gb).2).2).1 with
          | none => simp only [hej]
          | some o1 =>
            simp only [hej]
            rw [ih _ _ _ _ hj]
            exact Function.update_noteq ((hne _).symm) _ buf
    · rw [if_neg h1]

/-- Claim C9: every coefficient store performed by
`fix_wmapro_run_level_decode` uses the index `offset & (block_len - 1)`,
so for a power-of-two `block_len` all writes to the coefficient buffer
land inside `[0, block_len)` — the buffer is unchanged at every index
`>= block_len`, for every bitstream, even ones whose running offset
overruns `num_coefs` (which the function reports only after the loop). -/
theorem claim_C9_run_level_in_bounds
    (vlc : Wmapro.GetBitContext → Nat × Wmapro.GetBitContext)
    (level_table : Nat → Int) (run_table : Nat → Nat)
    (frame_len_bits offset num_coefs k fuel : Nat)
    (buf : Nat → Int) (gb : Wmapro.GetBitContext) (j : Nat) (hj : 2 ^ k ≤ j) :
    (Wmapro.fix_wmapro_run_level_decode vlc level_table run_table frame_len_bits offset
      num_coefs (2 ^ k) fuel buf gb).2.1 j = buf j := by
  have h := rl_loop_mask vlc level_table run_table frame_len_bits num_coefs k fuel
    offset buf gb j hj
  simp only [Wmapro.fix_wmapro_run_level_decode]
  split
  · exact h
  · split <;> exact h

/-- Witness for C9: with block length 4 = 2^2 the buffer is untouched at
index 7 (an immediate-EOB VLC stream). -/
theorem claim_C9_witness :
    (Wmapro.fix_wmapro_run_level_decode (fun gb => (1, gb)) (fun _ => 0) (fun _ => 0)
      3 0 4 (2 ^ 2) 3 (fun n => (n : Int)) ⟨[], 0⟩).2.1 7 = 7 :=
  claim_C9_run_level_in_bounds (fun gb => (1, gb)) (fun _ => 0) (fun _ => 0)
    3 0 4 2 3 (fun n => (n : Int)) ⟨[], 0⟩ 7 (by decide)

/-- Claim C6: for every channel participating in a subframe, the windowed
overlap-add uses window length `min(subframe_len, prev_block_len)`
(centered at the channel's block boundary), and after the overlap-add the
channel's `prev_block_len` equals `subframe_len`.  Block lengths are
powers of two in the decoder, so both lengths are assumed even. -/
theorem claim_C6_window_min (subframe_len : Nat) (windows : Nat → Nat → Int)
    (chans : List Wmapro.WinChannel) (hsub : 2 ∣ subframe_len)
    (hprev : ∀ ch ∈ chans, 2 ∣ ch.prev_block_len) :
    Wmapro.wmapro_window subframe_len windows chans =
      chans.map (fun ch =>
        { fixbuf := Wmapro.wmapro_vector_fmul_window ch.fixbuf ch.center
            (windows (Wmapro.av_log2 (min subframe_len ch.prev_block_len) -
              Wmapro.WMAPRO_BLOCK_MIN_BITS))
            (min subframe_len ch.prev_block_len >>> 1),
          center := ch.center,
          prev_block_len := subframe_len }) := by
  unfold Wmapro.wmapro_window
  apply List.map_congr_left
  intro ch hch
  obtain ⟨a, ha⟩ := hsub
  obtain ⟨b, hb⟩ := hprev ch hch
  simp only [Wmapro.wmapro_window_channel]
  by_cases hlt : subframe_len < ch.prev_block_len
  · simp only [if_pos hlt]
    have hmin : min subframe_len ch.prev_block_len = subframe_len :=
      Nat.min_eq_left (Nat.le_of_lt hlt)
    rw [hmin]
    have hc : ch.center - ((ch.prev_block_len >>> 1 : Nat) : Int) +
        (((ch.prev_block_len - subframe_len) >>> 1 : Nat) : Int) +
        ((subframe_len >>> 1 : Nat) : Int) = ch.center := by
      simp only [Nat.shiftRight_eq_div_pow, pow_one]
      omega
    rw [hc]
  · simp only [if_neg hlt]
    have hmin : min subframe_len ch.prev_block_len = ch.prev_block_len :=
      Nat.min_eq_right (by omega)
    rw [hmin]
    simp only [add_zero, sub_add_cancel]

/-- Witness for C6 at a concrete channel (previous block 4, subframe 8):
the window length used is `min 8 4 = 4` and `prev_block_len` becomes 8. -/
theorem claim_C6_witness :
    Wmapro.wmapro_window 8 (fun _ _ => 0) [⟨fun _ => 0, 0, 4⟩] =
      [{ fixbuf := Wmapro.wmapro_vector_fmul_window (fun _ => 0) 0
          ((fun _ _ => (0 : Int)) (Wmapro.av_log2 (min 8 4) - Wmapro.WMAPRO_BLOCK_MIN_BITS))
          (min 8 4 >>> 1),
         center := 0, prev_block_len := 8 }] :=
  claim_C6_window_min 8 (fun _ _ => 0) [⟨fun _ => 0, 0, 4⟩] (by decide)
    (by intro ch hch; simp at hch; rw [hch]; decide)

/-- The per-band rescale fold leaves untouched every index outside all band
write ranges. -/
theorem rescale_foldl_untouched (subframe_len : Nat) (sfb_offsets : Nat → Nat)
    (mul1 mul2 : Nat → Int) (scale : Nat → Nat) (fixcoeffs : Nat → Int) (j : Nat) :
    ∀ (l : List Nat) (t : Nat → Int),
      (∀ b ∈ l, ¬ (sfb_offsets b ≤ j ∧ j < min (sfb_offsets (b + 1)) subframe_len)) →
      (l.foldl (fun t b =>
        Wmapro.wmapro_vector_fmul_scalar64 t fixcoeffs (mul1 b) (mul2 b) (scale b)
          (sfb_offsets b) (min (sfb_offsets (b + 1)) subframe_len - sfb_offsets b)) t) j
        = t j := by
  intro l
  induction l with
  | nil => intro t _; rfl
  | cons b bs ih =>
    intro t hl
    simp only [List.foldl_cons]
    rw [ih _ (fun x hx => hl x (List.mem_cons_of_mem b hx))]
    have hb := hl b (List.mem_cons_self b bs)
    simp only [Wmapro.wmapro_vector_fmul_scalar64]
    rw [if_neg]
    omega

/-- Counterexample to C4 as stated: for an LFE subframe of length 4 with
`subwoofer_cutoffs[table_idx] = 2` and one band covering the whole block,
the buffer passed to the IMDCT holds the rescaled coefficient 4 (not 0)
at index 3, which lies in `[cutoff, subframe_len)` — the zeroed tail is
overwritten by the inverse-quantization loop that runs after the memset
and before the IMDCT. -/
theorem claim_C4_counterexample :
    Wmapro.subframe_rescale true 2 4 1 (fun b => if b = 0 then 0 else 4) (fun _ => 2 ^ 30)
      (fun _ => 1) (fun _ => 0) (fun _ => 32) (fun _ => 0) 3 = 4 ∧ 2 ≤ 3 ∧ 3 < 4 := by
  constructor
  · decide
  · exact ⟨by omega, by omega⟩

/-- Claim C4 (amended): for an LFE subframe that transmits coefficients,
the tail from `subwoofer_cutoffs[table_idx]` is zeroed before the
inverse-quantization loop (hence before the IMDCT), but that loop then
overwrites every band range; consequently the buffer passed to the IMDCT
is zero at an index of `[cutoff, subframe_len)` whenever no band range
covers that index (rather than at every such index). -/
theorem claim_C4_lfe_tail (cutoff subframe_len num_bands : Nat) (sfb_offsets : Nat → Nat)
    (mul1 mul2 : Nat → Int) (scale : Nat → Nat) (fixcoeffs fixtmp : Nat → Int) (j : Nat)
    (hj1 : cutoff ≤ j) (hj2 : j < subframe_len)
    (hout : ∀ b, b < num_bands →
      ¬ (sfb_offsets b ≤ j ∧ j < min (sfb_offsets (b + 1)) subframe_len)) :
    Wmapro.subframe_rescale true cutoff subframe_len num_bands sfb_offsets mul1 mul2 scale
      fixcoeffs fixtmp j = 0 := by
  simp only [Wmapro.subframe_rescale, if_true]
  rw [rescale_foldl_untouched subframe_len sfb_offsets mul1 mul2 scale fixcoeffs j
    (List.range num_bands) _ (fun b hb => hout b (List.mem_range.mp hb))]
  rw [if_pos ⟨hj1, hj2⟩]

/-- Witness for the amended C4: the single band covers `[0, 2)`, so index
3 of the IMDCT input is still zero. -/
theorem claim_C4_witness :
    Wmapro.subframe_rescale true 2 4 1 (fun b => if b = 0 then 0 else 2) (fun _ => 2 ^ 30)
      (fun _ => 1) (fun _ => 0) (fun _ => 32) (fun _ => 0) 3 = 0 :=
  claim_C4_lfe_tail 2 4 1 (fun b => if b = 0 then 0 else 2) (fun _ => 2 ^ 30)
    (fun _ => 1) (fun _ => 0) (fun _ => 32) (fun _ => 0) 3 (by omega) (by omega)
    (by
      intro b hb
      have hb0 : b = 0 := by omega
      subst hb0
      decide)

/-- Contains-flags pass: the flag list has one entry per channel, and a
raised flag implies the channel's sample count equals the scanned
minimum. -/
theorem tile_contains_mem (cfg : Wmapro.TileConfig) (fixed : Bool) (cfcs mcl : Nat) :
    ∀ (chs : List Wmapro.TileChannel) (gb : Wmapro.GetBitContext),
      (Wmapro.tile_contains cfg fixed cfcs mcl chs gb).1.length = chs.length ∧
      ∀ p ∈ chs.zip (Wmapro.tile_contains cfg fixed cfcs mcl chs gb).1,
        p.2 = true → p.1.num_samples = mcl := by
  intro chs
  induction chs with
  | nil => intro gb; exact ⟨rfl, by simp [Wmapro.tile_contains]⟩
  | cons ch rest ih =>
    intro gb
    simp only [Wmapro.tile_contains]
    by_cases hns : ch.num_samples = mcl
    · rw [if_pos hns]
      by_cases hforce : fixed = true ∨ cfcs = 1 ∨
          mcl = cfg.samples_per_frame - cfg.min_samples_per_subframe
      · rw [if_pos hforce]
        refine ⟨by simp [(ih gb).1], ?_⟩
        intro p hp
        rw [List.zip_cons_cons] at hp
        rcases List.mem_cons.mp hp with h | h
        · subst h; intro _; exact hns
        · exact (ih gb).2 p h
      · rw [if_neg hforce]
        refine ⟨by simp [(ih (Wmapro.get_bits1 gb).2).1], ?_⟩
        intro p hp
        rw [List.zip_cons_cons] at hp
        rcases List.mem_cons.mp hp with h | h
        · subst h; intro _; exact hns
        · exact (ih (Wmapro.get_bits1 gb).2).2 p h
    · rw [if_neg hns]
      refine ⟨by simp [(ih gb).1], ?_⟩
      intro p hp
      rw [List.zip_cons_cons] at hp
      rcases List.mem_cons.mp hp with h | h
      · subst h; intro hf; exact absurd hf (by simp)
      · exact (ih gb).2 p h

/-- A successfully decoded subframe length never exceeds
`samples_per_frame`. -/
theorem decode_subframe_length_le (cfg : Wmapro.TileConfig) (offset : Nat)
    (gb gb1 : Wmapro.GetBitContext) (l : Nat)
    (hmin : cfg.min_samples_per_subframe ≤ cfg.samples_per_frame)
    (h : Wmapro.decode_subframe_length cfg offset gb = some (l, gb1)) :
    l ≤ cfg.samples_per_frame := by
  unfold Wmapro.decode_subframe_length at h
  split at h
  · simp only [Option.some.injEq, Prod.mk.injEq] at h
    omega
  · unfold Wmapro.decode_subframe_length_check at h
    split at h
    · exact absurd h (by simp)
    · rename_i hrange
      simp only [Option.some.injEq, Prod.mk.injEq] at h
      obtain ⟨h1, _⟩ := h
      omega

/-- `compute_offsets` produces the running sums of the preceding
lengths. -/
theorem compute_offsets_get (lens : List Nat) :
    ∀ (acc i : Nat), i < lens.length →
      (Wmapro.compute_offsets acc lens).get? i = some (acc + (lens.take i).sum) := by
  induction lens with
  | nil => intro acc i hi; simp at hi
  | cons l ls ih =>
    intro acc i hi
    cases i with
    | zero => simp [Wmapro.compute_offsets]
    | succ i =>
      simp only [Wmapro.compute_offsets, List.get?_cons_succ]
      rw [ih (acc + l) i (by simpa using hi)]
      simp [List.take_succ_cons]
      omega

/-- Specification of the apply pass at new minimum `μ ≤ m + l`, where `m`
is the scanned minimum of the contains pass: on success, the recomputed
minimum never exceeds `μ`, and for every resulting channel it is a lower
bound of the channel's accumulator, which stays within `samples_per_frame`
and equal to the sum of the channel's subframe lengths. -/
theorem tile_apply_spec (cfg : Wmapro.TileConfig) (l m : Nat) (hml : m + l < 65536) :
    ∀ (pairs : List (Wmapro.TileChannel × Bool)) (μ cfcs : Nat)
      (out : List Wmapro.TileChannel × Nat × Nat),
      μ ≤ m + l →
      (∀ p ∈ pairs, p.2 = true → p.1.num_samples = m) →
      (∀ p ∈ pairs, p.1.num_samples ≤ cfg.samples_per_frame ∧
        p.1.num_samples = p.1.subframe_len.sum) →
      Wmapro.tile_apply cfg l pairs μ cfcs = some out →
      out.2.1 ≤ μ ∧
      ∀ ch ∈ out.1, out.2.1 ≤ ch.num_samples ∧
        ch.num_samples ≤ cfg.samples_per_frame ∧
        ch.num_samples = ch.subframe_len.sum := by
  intro pairs
  induction pairs with
  | nil =>
    intro μ cfcs out hμ _ _ h
    simp only [Wmapro.tile_apply, Option.some.injEq] at h
    subst h
    exact ⟨le_refl μ, by simp⟩
  | cons p rest ih =>
    obtain ⟨ch, f⟩ := p
    intro μ cfcs out hμ hflag hns h
    simp only [Wmapro.tile_apply] at h
    by_cases hf : f = true
    · rw [if_pos hf] at h
      by_cases hmax : Wmapro.MAX_SUBFRAMES ≤ ch.subframe_len.length
      · rw [if_pos hmax] at h
        exact absurd h (by simp)
      · rw [if_neg hmax] at h
        by_cases hover : cfg.samples_per_frame < (ch.num_samples + l) % 65536
        · rw [if_pos hover] at h
          exact absurd h (by simp)
        · rw [if_neg hover] at h
          cases hrec : Wmapro.tile_apply cfg l rest μ cfcs with
          | none => rw [hrec] at h; exact absurd h (by simp)
          | some out1 =>
            obtain ⟨chs1, mcl2, cfcs2⟩ := out1
            rw [hrec] at h
            simp only [Option.some.injEq] at h
            subst h
            have hih := ih μ cfcs (chs1, mcl2, cfcs2) hμ
              (fun q hq => hflag q (List.mem_cons_of_mem _ hq))
              (fun q hq => hns q (List.mem_cons_of_mem _ hq)) hrec
            have hm : ch.num_samples = m := hflag (ch, f) (List.mem_cons_self _ _) hf
            have hnw : (ch.num_samples + l) % 65536 = ch.num_samples + l :=
              Nat.mod_eq_of_lt (by omega)
            refine ⟨hih.1, ?_⟩
            intro ch2 hch2
            rcases List.mem_cons.mp hch2 with hh | hh
            · subst hh
              have hsum : ch.num_samples = ch.subframe_len.sum :=
                (hns (ch, f) (List.mem_cons_self _ _)).2
              have hq : mcl2 ≤ μ := hih.1
              refine ⟨?_, ?_, ?_⟩
              · show mcl2 ≤ (ch.num_samples + l) % 65536
                rw [hnw]
                omega
              · show (ch.num_samples + l) % 65536 ≤ cfg.samples_per_frame
                omega
              · show (ch.num_samples + l) % 65536 = (ch.subframe_len ++ [l]).sum
                rw [hnw, List.sum_append, List.sum_cons, List.sum_nil]
                omega
            · exact hih.2 ch2 hh
    · rw [if_neg hf] at h
      by_cases hle : ch.num_samples ≤ μ
      · rw [if_pos hle] at h
        cases hrec : Wmapro.tile_apply cfg l rest
            (if ch.num_samples < μ then ch.num_samples else μ)
            ((if ch.num_samples < μ then 0 else cfcs) + 1) with
        | none => rw [hrec] at h; exact absurd h (by simp)
        | some out1 =>
          obtain ⟨chs1, mcl2, cfcs2⟩ := out1
          rw [hrec] at h
          simp only [Option.some.injEq] at h
          subst h
          have hμ1 : (if ch.num_samples < μ then ch.num_samples else μ) ≤ m + l := by
            split <;> omega
          have hih := ih (if ch.num_samples < μ then ch.num_samples else μ)
            ((if ch.num_samples < μ then 0 else cfcs) + 1) (chs1, mcl2, cfcs2) hμ1
            (fun q hq => hflag q (List.mem_cons_of_mem _ hq))
            (fun q hq => hns q (List.mem_cons_of_mem _ hq)) hrec
          have hμ2 : (if ch.num_samples < μ then ch.num_samples else μ) ≤ μ := by
            split <;> omega
          have hμ3 : (if ch.num_samples < μ then ch.num_samples else μ) ≤ ch.num_samples := by
            split <;> omega
          have h1 : mcl2 ≤ (if ch.num_samples < μ then ch.num_samples else μ) := hih.1
          refine ⟨?_, ?_⟩
          · show mcl2 ≤ μ
            omega
          · intro ch2 hch2
            rcases List.mem_cons.mp hch2 with hh | hh
            · subst hh
              have hh2 := hns (ch2, f) (List.mem_cons_self _ _)
              refine ⟨?_, hh2.1, hh2.2⟩
              show mcl2 ≤ ch2.num_samples
              omega
            · exact hih.2 ch2 hh
      · rw [if_neg hle] at h
        cases hrec : Wmapro.tile_apply cfg l rest μ cfcs with
        | none => rw [hrec] at h; exact absurd h (by simp)
        | some out1 =>
          obtain ⟨chs1, mcl2, cfcs2⟩ := out1
          rw [hrec] at h
          simp only [Option.some.injEq] at h
          subst h
          have hih := ih μ cfcs (chs1, mcl2, cfcs2) hμ
            (fun q hq => hflag q (List.mem_cons_of_mem _ hq))
            (fun q hq => hns q (List.mem_cons_of_mem _ hq)) hrec
          have h1 : mcl2 ≤ μ := hih.1
          refine ⟨h1, ?_⟩
          intro ch2 hch2
          rcases List.mem_cons.mp hch2 with hh | hh
          · subst hh
            have hh2 := hns (ch2, f) (List.mem_cons_self _ _)
            refine ⟨?_, hh2.1, hh2.2⟩
            show mcl2 ≤ ch2.num_samples
            omega
          · exact hih.2 ch2 hh

/-- One loop iteration preserves the tile invariant. -/
theorem tile_step_inv (cfg : Wmapro.TileConfig) (fixed : Bool)
    (st st' : Wmapro.TileState)
    (hmin : cfg.min_samples_per_subframe ≤ cfg.samples_per_frame)
    (hspf : cfg.samples_per_frame ≤ 8192)
    (hmcl : st.mcl < cfg.samples_per_frame)
    (hinv : Wmapro.TileInvariant cfg st)
    (h : Wmapro.tile_step cfg fixed st = some st') :
    Wmapro.TileInvariant cfg st' := by
  simp only [Wmapro.tile_step] at h
  cases hdsl : Wmapro.decode_subframe_length cfg st.mcl
      (Wmapro.tile_contains cfg fixed st.cfcs st.mcl st.channels st.gb).2 with
  | none => rw [hdsl] at h; exact absurd h (by simp)
  | some pl =>
    obtain ⟨l, gb1⟩ := pl
    rw [hdsl] at h
    simp only [] at h
    cases happ : Wmapro.tile_apply cfg l
        (st.channels.zip
          (Wmapro.tile_contains cfg fixed st.cfcs st.mcl st.channels st.gb).1)
        (st.mcl + l) st.cfcs with
    | none => rw [happ] at h; exact absurd h (by simp)
    | some out =>
      obtain ⟨chs, mcl2, cfcs2⟩ := out
      rw [happ] at h
      simp only [Option.some.injEq] at h
      subst h
      have hl : l ≤ cfg.samples_per_frame :=
        decode_subframe_length_le cfg st.mcl _ gb1 l hmin hdsl
      have hcm := tile_contains_mem cfg fixed st.cfcs st.mcl st.channels st.gb
      have hspec := tile_apply_spec cfg l st.mcl (by omega)
        (st.channels.zip
          (Wmapro.tile_contains cfg fixed st.cfcs st.mcl st.channels st.gb).1)
        (st.mcl + l) st.cfcs (chs, mcl2, cfcs2) (le_refl _) hcm.2
        (fun q hq => by
          obtain ⟨a, b⟩ := q
          have ha := (List.of_mem_zip hq).1
          exact ⟨(hinv a ha).2.1, (hinv a ha).2.2⟩)
        happ
      intro ch hch
      exact hspec.2 ch hch

/-- Success of the loop implies the invariant at a final state whose
minimum has reached `samples_per_frame`. -/
theorem tile_loop_inv (cfg : Wmapro.TileConfig) (fixed : Bool)
    (hmin : cfg.min_samples_per_subframe ≤ cfg.samples_per_frame)
    (hspf : cfg.samples_per_frame ≤ 8192) :
    ∀ (fuel : Nat) (st st' : Wmapro.TileState),
      st.mcl < cfg.samples_per_frame →
      Wmapro.TileInvariant cfg st →
      Wmapro.tile_loop cfg fixed fuel st = some st' →
      cfg.samples_per_frame ≤ st'.mcl ∧ Wmapro.TileInvariant cfg st' := by
  intro fuel
  induction fuel with
  | zero =>
    intro st st' _ _ h
    exact absurd h (by simp [Wmapro.tile_loop])
  | succ f ih =>
    intro st st' hmcl hinv h
    simp only [Wmapro.tile_loop] at h
    cases hstep : Wmapro.tile_step cfg fixed st with
    | none => rw [hstep] at h; exact absurd h (by simp)
    | some st1 =>
      rw [hstep] at h
      simp only [] at h
      have hinv1 := tile_step_inv cfg fixed st st1 hmin hspf hmcl hinv hstep
      by_cases hlt : st1.mcl < cfg.samples_per_frame
      · rw [if_pos hlt] at h
        exact ih st1 st' hlt hinv1 h
      · rw [if_neg hlt] at h
        simp only [Option.some.injEq] at h
        subst h
        exact ⟨by omega, hinv1⟩

/-- Claim C1: whenever `decode_tilehdr` returns success, every channel's
subframe lengths sum to `samples_per_frame`, and each `subframe_offset`
entry equals the sum of that channel's preceding subframe lengths.  The
configuration hypotheses hold for every stream accepted by `decode_init`
(`min_samples_per_subframe = samples_per_frame / max_num_subframes ≥ 1`
and `samples_per_frame ≤ 8192`). -/
theorem claim_C1_tilehdr_sums (cfg : Wmapro.TileConfig) (fuel : Nat)
    (gb gb1 : Wmapro.GetBitContext) (res : List (List Nat × List Nat))
    (hmin1 : 1 ≤ cfg.min_samples_per_subframe)
    (hmin2 : cfg.min_samples_per_subframe ≤ cfg.samples_per_frame)
    (hspf : cfg.samples_per_frame ≤ 8192)
    (h : Wmapro.decode_tilehdr cfg fuel gb = some (res, gb1)) :
    ∀ pr ∈ res, pr.1.sum = cfg.samples_per_frame ∧
      ∀ i, i < pr.1.length → pr.2.get? i = some ((pr.1.take i).sum) := by
  unfold Wmapro.decode_tilehdr at h
  cases hloop : Wmapro.tile_loop cfg (Wmapro.tilehdr_fixed cfg gb).1 fuel
      ⟨List.replicate cfg.num_channels ⟨[], 0⟩, 0, cfg.num_channels,
        (Wmapro.tilehdr_fixed cfg gb).2⟩ with
  | none => rw [hloop] at h; exact absurd h (by simp)
  | some st =>
    rw [hloop] at h
    simp only [Option.some.injEq, Prod.mk.injEq] at h
    obtain ⟨hres, _⟩ := h
    subst hres
    have hinv0 : Wmapro.TileInvariant cfg
        ⟨List.replicate cfg.num_channels ⟨[], 0⟩, 0, cfg.num_channels,
          (Wmapro.tilehdr_fixed cfg gb).2⟩ := by
      intro ch hch
      have hc := List.eq_of_mem_replicate hch
      subst hc
      exact ⟨Nat.zero_le _, Nat.zero_le _, rfl⟩
    have hfin := tile_loop_inv cfg (Wmapro.tilehdr_fixed cfg gb).1 hmin2 hspf fuel
      ⟨List.replicate cfg.num_channels ⟨[], 0⟩, 0, cfg.num_channels,
        (Wmapro.tilehdr_fixed cfg gb).2⟩ st (by show 0 < cfg.samples_per_frame; omega)
      hinv0 hloop
    intro pr hpr
    rw [List.mem_map] at hpr
    obtain ⟨ch, hch, hpr⟩ := hpr
    subst hpr
    have hch2 := hfin.2 ch hch
    have hsum : ch.subframe_len.sum = cfg.samples_per_frame := by
      have h1 := hfin.1
      omega
    refine ⟨hsum, ?_⟩
    intro i hi
    rw [compute_offsets_get ch.subframe_len 0 i hi]
    simp

/-- Witness for C1: one channel, frame of 2 samples split as a single
subframe of length 2 (fixed-layout bit 1, length bit 0). -/
theorem claim_C1_witness :
    (([2] : List Nat).sum = (⟨1, 2, 1, 2, false, 1⟩ : Wmapro.TileConfig).samples_per_frame) ∧
      (([0] : List Nat).get? 0 = some ((([2] : List Nat).take 0).sum)) := by
  have h := claim_C1_tilehdr_sums ⟨1, 2, 1, 2, false, 1⟩ 3 ⟨[true, false], 0⟩ ⟨[], 2⟩
    [([2], [0])] (by decide) (by decide) (by decide) (by decide)
  have h2 := h ([2], [0]) (by decide)
  exact ⟨h2.1, h2.2 0 (by decide)⟩

